import Mathlib

/-!
# Verification of the klipBored clipboard-history core

Shallow embedding of `src/main.rs` of the klipBored repository, together with
proofs checking the repository's specification against it.

Modelling conventions:
* Rust `String` values are modelled as `List Char` (Rust strings are sequences
  of unicode scalar values; `str::len` is the UTF-8 byte length, modelled via
  `Char.utf8Size`).
* `std::time::Instant` values are modelled as natural numbers of milliseconds.
  `Instant` is monotone, so `elapsed = now - earlier` is a truncated (`Nat`)
  subtraction.
* The `DefaultHasher` content hash is a deterministic foreign function of the
  image byte sequence; it is passed as an explicit parameter `hash`.
* The clipboard is foreign state: each poll tick receives the outcome of the
  tick's clipboard observations (handle acquisition, text read, image read) as
  arguments.
-/

set_option linter.unusedVariables false
set_option maxRecDepth 8000

namespace KlipBored

/-- The owned image payload (`ImageDataOwned`, main.rs lines 96-100):
width, height and the raw RGBA byte buffer. -/
structure ImageDataOwned where
  width : Nat
  height : Nat
  data : List Nat
deriving DecidableEq

/-- The `ClipboardContent` union (main.rs lines 102-112).  The `gdk::Texture` of the
`Image` variant is a render handle derived deterministically from `raw`
(`raw_to_texture`, lines 149-159) and carries no independent model state, so it
is not part of the embedded state. -/
inductive ClipboardContent where
  | Text (full : List Char) (display : List Char)
  | Image (raw : ImageDataOwned)
deriving DecidableEq

/-! ## The preview transform `compact_preview` (main.rs lines 135-147)

Rust `str::lines` splits at `'\n'`, additionally removing one `'\r'` that
directly precedes a removed `'\n'`; a final line terminator produces no extra
empty line.  We model it as `splitOnNl` (plain split at `'\n'`) followed by
`finishLines` (strip one trailing `'\r'` from every `'\n'`-terminated segment,
drop a final empty segment). -/

/-- Split a character list at `'\n'`; always returns at least one segment, and
`n` newline characters produce `n + 1` segments. -/
def splitOnNl : List Char → List (List Char)
  | [] => [[]]
  | c :: rest =>
    if c = '\n' then [] :: splitOnNl rest
    else
      match splitOnNl rest with
      | [] => [[c]]
      | l :: ls => (c :: l) :: ls

/-- Remove one trailing `'\r'`, as Rust `str::lines` does on every
newline-terminated line. -/
def stripCr : List Char → List Char
  | [] => []
  | c :: rest => if rest = [] ∧ c = '\r' then [] else c :: stripCr rest

/-- Post-processing of `splitOnNl` that yields exactly the `str::lines`
segments: every segment except the last one was `'\n'`-terminated in the
source and loses one trailing `'\r'`; a final empty segment (from a trailing
`'\n'`, or from the empty string) is dropped. -/
def finishLines : List (List Char) → List (List Char)
  | [] => []
  | l :: ls =>
    if ls = [] then (if l.isEmpty then [] else [l])
    else stripCr l :: finishLines ls

/-- Rust `text.lines().collect::<Vec<_>>()` (main.rs line 138). -/
def rustLines (s : List Char) : List (List Char) :=
  finishLines (splitOnNl s)

/-- Rust `lines.join("\n")` (main.rs line 142). -/
def joinNl : List (List Char) → List Char
  | [] => []
  | l :: ls => if ls = [] then l else l ++ '\n' :: joinNl ls

/-- Rust `String::len`: the UTF-8 byte length of the string
(main.rs line 143 compares this against 300). -/
def byteLen (s : List Char) : Nat :=
  (s.map Char.utf8Size).sum

/-- The function `compact_preview` (main.rs lines 135-147): keep at most the first 4 lines,
rejoin them with `'\n'`, and if the *byte* length of the result exceeds 300,
keep only its first 300 *characters*. -/
def compact_preview (text : List Char) : List Char :=
  let ls := rustLines text
  let ls2 := if ls.length > 4 then ls.take 4 else ls
  let result := joinNl ls2
  if byteLen result > 300 then result.take 300 else result

/-- Boolean character-prefix test: `listPre a b = true` iff `a` is a prefix of
`b` (used to state the spec's "the output is a character-prefix of the
input"). -/
def listPre : List Char → List Char → Bool
  | [], _ => true
  | _ :: _, [] => false
  | a :: as, b :: bs => a == b && listPre as bs

/-! ## History store (`FactoryVecDeque`, front = most recent) -/

/-- The `KlipBoredMsg::NewItem` arm of `update` (main.rs lines 760-766):
`push_front` the new content, then `pop_back` once when the length exceeds 50.
The store is modelled front-first, so `push_front` is `cons` and `pop_back` is
`dropLast`. -/
def pushItem (entries : List ClipboardContent) (c : ClipboardContent) :
    List ClipboardContent :=
  let s := c :: entries
  if s.length > 50 then s.dropLast else s

/-- The `KlipBoredMsg::DeleteItem` arm of `update` (main.rs lines 767-769).
`FactoryVecDeque::remove` has `VecDeque::remove` semantics: the element at the
index is removed, and an out-of-bounds index is a silent no-op (it returns
`None` and does not panic).  `List.eraseIdx` has exactly these semantics. -/
def removeAt (entries : List ClipboardContent) (i : Nat) :
    List ClipboardContent :=
  entries.eraseIdx i

/-! ## C1: bounded history -/

lemma pushItem_eq_take (entries : List ClipboardContent) (c : ClipboardContent)
    (h : entries.length ≤ 50) :
    pushItem entries c = (c :: entries).take 50 := by
  unfold pushItem
  by_cases h51 : (c :: entries).length > 50
  · rw [if_pos h51, List.dropLast_eq_take]
    simp only [List.length_cons]
    congr 1
    simp only [List.length_cons] at h51
    omega
  · rw [if_neg h51]
    exact (List.take_of_length_le (by omega)).symm

lemma take_append_take {α : Type} (a b : List α) (n : Nat) :
    (a ++ b.take n).take n = (a ++ b).take n := by
  rw [List.take_append_eq_append_take, List.take_append_eq_append_take,
    List.take_take]
  congr 1
  congr 1
  omega

lemma foldl_pushItem :
    ∀ (cs : List ClipboardContent) (entries : List ClipboardContent),
      entries.length ≤ 50 →
      cs.foldl pushItem entries = (cs.reverse ++ entries).take 50
  | [], entries, h => by
    simp [List.take_of_length_le h]
  | c :: cs, entries, h => by
    rw [List.foldl_cons,
      foldl_pushItem cs (pushItem entries c)
        (by rw [pushItem_eq_take entries c h]
            simp only [List.length_take]
            exact Nat.min_le_left 50 (c :: entries).length),
      pushItem_eq_take entries c h, take_append_take, List.reverse_cons,
      List.append_assoc, List.singleton_append]

/-- C1.  History bound and order: starting from any store state of length at
most 50 (the store invariant), a sequence of pushes `cs` (oldest first) leaves
the store equal to the most recent 50 pushed contents in reverse push order
followed by the surviving previous contents — `(cs.reverse ++ entries).take 50`
— and therefore of length `min (initial + N) 50`.  From an empty store, `N`
pushes leave exactly `min N 50` entries, and after 51 pushes the back entry is
push #2 (see the witness). -/
theorem C1_bounded_history (entries cs : List ClipboardContent)
    (h : entries.length ≤ 50) :
    cs.foldl pushItem entries = (cs.reverse ++ entries).take 50 ∧
    (cs.foldl pushItem entries).length = min (entries.length + cs.length) 50 := by
  refine ⟨foldl_pushItem cs entries h, ?_⟩
  rw [foldl_pushItem cs entries h, List.length_take, List.length_append,
    List.length_reverse]
  omega

/-- Fifty-one distinct single-character texts, push #1 first. -/
def c1Pushes : List ClipboardContent :=
  (List.range 51).map (fun n => .Text [Char.ofNat (65 + n)] [])

/-- Witness for C1: pushing 51 distinct texts into the empty store leaves
length exactly 50 = min 51 50, and the back (oldest surviving) entry is
push #2 (`Char.ofNat 66`); push #1 (`Char.ofNat 65`) was evicted. -/
theorem C1_bounded_history_witness :
    ([] : List ClipboardContent).length ≤ 50 ∧
    (c1Pushes.foldl pushItem []).length =
      min (([] : List ClipboardContent).length + c1Pushes.length) 50 ∧
    (c1Pushes.foldl pushItem []).length = 50 ∧
    (c1Pushes.foldl pushItem []).getLast? =
      some (.Text [Char.ofNat 66] []) ∧
    (c1Pushes.foldl pushItem []).head? =
      some (.Text [Char.ofNat (65 + 50)] []) :=
  ⟨by decide, (C1_bounded_history [] c1Pushes (by decide)).2,
    by decide, by decide, by decide⟩

/-! ## C7: removal safety -/

/-- C7.  Removal safety: deleting at an out-of-bounds position is a silent
no-op — the store (hence its length and full front-to-back sequence) is
unchanged and no panic occurs (the operation is total); deleting at an
in-bounds position removes exactly the entry at that position, keeping all
other entries in relative order. -/
theorem C7_removal_safety (entries : List ClipboardContent) (p : Nat) :
    (entries.length ≤ p → removeAt entries p = entries) ∧
    (p < entries.length →
      removeAt entries p = entries.take p ++ entries.drop (p + 1)) := by
  constructor
  · intro h
    rw [removeAt, List.eraseIdx_eq_take_drop_succ,
      List.take_of_length_le h, List.drop_eq_nil_of_le (by omega),
      List.append_nil]
  · intro _
    exact List.eraseIdx_eq_take_drop_succ entries p

/-- Witness for C7: on the two-element store `[a, b]`, deleting at the
out-of-bounds position 5 changes nothing, and deleting at position 0 leaves
exactly `[b]`. -/
theorem C7_removal_safety_witness :
    removeAt [ClipboardContent.Text ['a'] ['a'],
      ClipboardContent.Text ['b'] ['b']] 5 =
      [ClipboardContent.Text ['a'] ['a'], ClipboardContent.Text ['b'] ['b']] ∧
    removeAt [ClipboardContent.Text ['a'] ['a'],
      ClipboardContent.Text ['b'] ['b']] 0 =
      [ClipboardContent.Text ['b'] ['b']] :=
  ⟨(C7_removal_safety _ 5).1 (by decide),
    by
      rw [(C7_removal_safety _ 0).2 (by decide)]
      decide⟩

/-! ## C8: setup-complete gate (`has_keybinding`, main.rs lines 44-47)

The Rust code is
`config_file().exists() && fs::read_to_string(..).map_or(false, |s| !s.trim().is_empty())`.
The two filesystem observations are passed in: whether the file exists, and
the result of reading it (`none` = read error). -/

/-- Rust `char::is_whitespace`: the Unicode `White_Space` property. -/
def isRustWhitespace (c : Char) : Bool :=
  let n := c.toNat
  (0x09 ≤ n && n ≤ 0x0D) || n = 0x20 || n = 0x85 || n = 0xA0 || n = 0x1680 ||
    (0x2000 ≤ n && n ≤ 0x200A) || n = 0x2028 || n = 0x2029 || n = 0x202F ||
    n = 0x205F || n = 0x3000

/-- Rust `str::trim`: remove leading and trailing whitespace. -/
def rustTrim (s : List Char) : List Char :=
  ((s.dropWhile isRustWhitespace).reverse.dropWhile isRustWhitespace).reverse

/-- The function `has_keybinding` (main.rs lines 44-47). -/
def has_keybinding (fileE : Bool) (readRes : Option (List Char)) : Bool :=
  fileE &&
    match readRes with
    | some s => !(rustTrim s).isEmpty
    | none => false

/-- C8 counterexample: a present keybinding file whose content is the single
space `" "` is non-empty, yet `has_keybinding` returns `false` (the code
requires the content to be non-empty *after trimming whitespace*), so
"complete iff the file is present and its content is a non-empty string" is
false. -/
theorem C8_counterexample :
    has_keybinding true (some [' ']) = false ∧ ([' '] : List Char) ≠ [] := by
  constructor
  · decide
  · decide

/-- C8 (amended).  Setup is considered complete exactly when the keybinding
file exists, is readable, and its content is non-empty after trimming
whitespace. -/
theorem C8_setup_gate (fileE : Bool) (readRes : Option (List Char)) :
    has_keybinding fileE readRes = true ↔
      fileE = true ∧ ∃ s, readRes = some s ∧ rustTrim s ≠ [] := by
  cases fileE <;> cases readRes <;>
    simp [has_keybinding, List.isEmpty_iff]

/-! ## Structural lemmas about the preview transform -/

lemma splitOnNl_ne_nil (s : List Char) : splitOnNl s ≠ [] := by
  cases s with
  | nil => simp [splitOnNl]
  | cons c rest =>
    unfold splitOnNl
    split
    · simp
    · cases h : splitOnNl rest <;> simp

lemma splitOnNl_cons (c : Char) (r : List Char) :
    splitOnNl (c :: r) =
      if c = '\n' then [] :: splitOnNl r
      else
        match splitOnNl r with
        | [] => [[c]]
        | l :: ls => (c :: l) :: ls := rfl

lemma splitOnNl_cons_nl (r : List Char) :
    splitOnNl ('\n' :: r) = [] :: splitOnNl r := by
  rw [splitOnNl_cons, if_pos rfl]

lemma splitOnNl_cons_ne (d : Char) (r : List Char) (hd : d ≠ '\n') :
    ∃ l ls, splitOnNl r = l :: ls ∧ splitOnNl (d :: r) = (d :: l) :: ls := by
  cases h : splitOnNl r with
  | nil => exact absurd h (splitOnNl_ne_nil r)
  | cons l ls =>
    refine ⟨l, ls, rfl, ?_⟩
    unfold splitOnNl
    rw [if_neg hd, h]

lemma joinNl_cons (l : List Char) (ls : List (List Char)) :
    joinNl (l :: ls) = if ls = [] then l else l ++ '\n' :: joinNl ls := rfl

lemma joinNl_cons_of_ne_nil (l : List Char) (ls : List (List Char))
    (h : ls ≠ []) : joinNl (l :: ls) = l ++ '\n' :: joinNl ls := by
  rw [joinNl_cons, if_neg h]

lemma joinNl_singleton (l : List Char) : joinNl [l] = l := rfl

lemma joinNl_cons_cons (c : Char) (l : List Char) (ls : List (List Char)) :
    joinNl ((c :: l) :: ls) = c :: joinNl (l :: ls) := by
  cases ls with
  | nil => rfl
  | cons x xs =>
    rw [joinNl_cons_of_ne_nil (c :: l) (x :: xs) (by simp),
      joinNl_cons_of_ne_nil l (x :: xs) (by simp), List.cons_append]

/-- Rejoining the plain `'\n'`-split recovers the original string. -/
lemma joinNl_splitOnNl : ∀ s : List Char, joinNl (splitOnNl s) = s
  | [] => rfl
  | c :: rest => by
    have IH := joinNl_splitOnNl rest
    by_cases hc : c = '\n'
    · subst hc
      cases h : splitOnNl rest with
      | nil => exact absurd h (splitOnNl_ne_nil rest)
      | cons l ls =>
        rw [splitOnNl_cons_nl, h, joinNl_cons_of_ne_nil _ _ (by simp),
          List.nil_append, ← h, IH]
    · obtain ⟨l, ls, h1, h2⟩ := splitOnNl_cons_ne c rest hc
      rw [h2, joinNl_cons_cons, ← h1, IH]

/-- Every character of a `splitOnNl` segment is a character of the source. -/
lemma mem_of_mem_splitOnNl :
    ∀ (s : List Char) (l : List Char), l ∈ splitOnNl s →
      ∀ c : Char, c ∈ l → c ∈ s
  | [], l, hl, c, hc => by
    rw [show splitOnNl [] = [[]] from rfl] at hl
    simp at hl
    subst hl
    simp at hc
  | a :: rest, l, hl, c, hc => by
    by_cases ha : a = '\n'
    · subst ha
      rw [splitOnNl_cons_nl, List.mem_cons] at hl
      rcases hl with rfl | hl
      · simp at hc
      · exact List.mem_cons_of_mem _ (mem_of_mem_splitOnNl rest l hl c hc)
    · obtain ⟨l', ls, h1, h2⟩ := splitOnNl_cons_ne a rest ha
      rw [h2, List.mem_cons] at hl
      rcases hl with rfl | hl
      · rcases List.mem_cons.mp hc with rfl | hc2
        · exact List.mem_cons_self _ _
        · refine List.mem_cons_of_mem _
            (mem_of_mem_splitOnNl rest l' ?_ c hc2)
          rw [h1]
          exact List.mem_cons_self _ _
      · refine List.mem_cons_of_mem _ (mem_of_mem_splitOnNl rest l ?_ c hc)
        rw [h1]
        exact List.mem_cons_of_mem _ hl

/-- No `splitOnNl` segment contains a newline. -/
lemma not_nl_mem_splitOnNl :
    ∀ (s : List Char) (l : List Char), l ∈ splitOnNl s → '\n' ∉ l
  | [], l, hl => by
    rw [show splitOnNl [] = [[]] from rfl] at hl
    simp at hl
    subst hl
    simp
  | a :: rest, l, hl => by
    by_cases ha : a = '\n'
    · subst ha
      rw [splitOnNl_cons_nl, List.mem_cons] at hl
      rcases hl with rfl | hl
      · simp
      · exact not_nl_mem_splitOnNl rest l hl
    · obtain ⟨l', ls, h1, h2⟩ := splitOnNl_cons_ne a rest ha
      rw [h2, List.mem_cons] at hl
      rcases hl with rfl | hl
      · intro hmem
        rcases List.mem_cons.mp hmem with h | h
        · exact ha h.symm
        · refine not_nl_mem_splitOnNl rest l' ?_ h
          rw [h1]
          exact List.mem_cons_self _ _
      · refine not_nl_mem_splitOnNl rest l ?_
        rw [h1]
        exact List.mem_cons_of_mem _ hl

lemma stripCr_cons (c : Char) (rest : List Char) :
    stripCr (c :: rest) =
      if rest = [] ∧ c = '\r' then [] else c :: stripCr rest := rfl

lemma stripCr_cons_of_ne_nil (c : Char) (rest : List Char) (h : rest ≠ []) :
    stripCr (c :: rest) = c :: stripCr rest := by
  rw [stripCr_cons, if_neg (by intro hx; exact h hx.1)]

lemma mem_stripCr : ∀ (l : List Char) (c : Char), c ∈ stripCr l → c ∈ l
  | [], c, h => by simp [stripCr] at h
  | a :: rest, c, h => by
    unfold stripCr at h
    split at h
    · simp at h
    · rcases List.mem_cons.mp h with rfl | h2
      · exact List.mem_cons_self _ _
      · exact List.mem_cons_of_mem _ (mem_stripCr rest c h2)

lemma stripCr_eq_of_not_mem : ∀ l : List Char, '\r' ∉ l → stripCr l = l
  | [], _ => rfl
  | a :: rest, h => by
    have ha : a ≠ '\r' := fun hc => h (hc ▸ List.mem_cons_self _ _)
    have hr : '\r' ∉ rest := fun hc => h (List.mem_cons_of_mem _ hc)
    rw [stripCr_cons, if_neg (by intro hx; exact ha hx.2),
      stripCr_eq_of_not_mem rest hr]

/-! ## Normal form of `compact_preview` and the prefix property (C4) -/

lemma length_le_byteLen (l : List Char) : l.length ≤ byteLen l := by
  induction l with
  | nil => simp [byteLen]
  | cons c rest ih =>
    have hc := Char.utf8Size_pos c
    simp only [byteLen, List.map_cons, List.sum_cons, List.length_cons]
    simp only [byteLen] at ih
    omega

/-- The two guards of `compact_preview` are equivalent to unconditional
`take`s: `lines.truncate(4)` is `take 4`, and the byte-length-guarded
character truncation is `take 300` (if the byte length is at most 300 then so
is the character count, and `take 300` is the identity). -/
lemma compact_preview_eq (s : List Char) :
    compact_preview s = (joinNl ((rustLines s).take 4)).take 300 := by
  have h1 : (if (rustLines s).length > 4 then (rustLines s).take 4
      else rustLines s) = (rustLines s).take 4 := by
    split
    · rfl
    · exact (List.take_of_length_le (by omega)).symm
  simp only [compact_preview]
  rw [h1]
  split
  · rfl
  · rename_i hb
    refine (List.take_of_length_le ?_).symm
    have := length_le_byteLen (joinNl ((rustLines s).take 4))
    omega

lemma listPre_iff : ∀ a b : List Char, listPre a b = true ↔ ∃ t, a ++ t = b
  | [], b => by simp [listPre]
  | a :: as, [] => by simp [listPre]
  | a :: as, b :: bs => by
    rw [show listPre (a :: as) (b :: bs) = ((a == b) && listPre as bs)
      from rfl]
    rw [Bool.and_eq_true, beq_iff_eq, listPre_iff as bs]
    constructor
    · rintro ⟨rfl, t, rfl⟩
      exact ⟨t, rfl⟩
    · rintro ⟨t, ht⟩
      rw [List.cons_append] at ht
      injection ht with h1 h2
      exact ⟨h1, t, h2⟩

lemma pre_take (l : List Char) (n : Nat) : ∃ t, l.take n ++ t = l :=
  ⟨l.drop n, List.take_append_drop n l⟩

lemma pre_trans {a b c : List Char} (h1 : ∃ t, a ++ t = b)
    (h2 : ∃ t, b ++ t = c) : ∃ t, a ++ t = c := by
  obtain ⟨t1, rfl⟩ := h1
  obtain ⟨t2, rfl⟩ := h2
  exact ⟨t1 ++ t2, (List.append_assoc a t1 t2).symm⟩

/-- If `joinNl M` is a prefix of `joinNl L` (with `L` nonempty), consing a
common first segment preserves that. -/
lemma pre_joinNl_cons (l : List Char) (M L : List (List Char))
    (h : ∃ t, joinNl M ++ t = joinNl L) (hL : L ≠ []) :
    ∃ t, joinNl (l :: M) ++ t = joinNl (l :: L) := by
  rw [joinNl_cons_of_ne_nil l L hL]
  cases M with
  | nil => exact ⟨'\n' :: joinNl L, by rw [joinNl_singleton]⟩
  | cons m ms =>
    obtain ⟨t, ht⟩ := h
    refine ⟨t, ?_⟩
    rw [joinNl_cons_of_ne_nil l (m :: ms) (by simp), List.append_assoc,
      List.cons_append, ht]

/-- Joining a prefix of the segment list yields a prefix of the join. -/
lemma joinNl_take_pre :
    ∀ (L : List (List Char)) (k : Nat), ∃ t, joinNl (L.take k) ++ t = joinNl L
  | L, 0 => ⟨joinNl L, by simp [joinNl]⟩
  | [], k => ⟨[], by simp [joinNl]⟩
  | l :: L', k + 1 => by
    rw [List.take_succ_cons]
    cases L' with
    | nil => exact ⟨[], by simp⟩
    | cons x xs =>
      exact pre_joinNl_cons l ((x :: xs).take k) (x :: xs)
        (joinNl_take_pre (x :: xs) k) (by simp)

/-- Dropping the trailing `'\r'`s and the final empty segment
(the `str::lines` post-processing) yields a prefix of the plain join, as long
as no segment contains a `'\r'`. -/
lemma joinNl_finishLines_pre :
    ∀ L : List (List Char), (∀ l ∈ L, '\r' ∉ l) →
      ∃ t, joinNl (finishLines L) ++ t = joinNl L
  | [], _ => ⟨[], by simp [finishLines, joinNl]⟩
  | [l], h => by
    rw [show finishLines [l] = if l.isEmpty then [] else [l] from rfl]
    split
    · rename_i hemp
      refine ⟨l, ?_⟩
      rw [show joinNl [] = [] from rfl, List.nil_append, joinNl_singleton]
    · exact ⟨[], by simp⟩
  | l :: l2 :: ls, h => by
    rw [show finishLines (l :: l2 :: ls) =
      stripCr l :: finishLines (l2 :: ls) from rfl]
    have hl : '\r' ∉ l := h l (List.mem_cons_self _ _)
    rw [stripCr_eq_of_not_mem l hl]
    exact pre_joinNl_cons l (finishLines (l2 :: ls)) (l2 :: ls)
      (joinNl_finishLines_pre (l2 :: ls)
        (fun x hx => h x (List.mem_cons_of_mem _ hx)))
      (by simp)

/-- C4 counterexample: on the input `"a\r\nb"`, `compact_preview` returns
`"a\nb"` (Rust `str::lines` deletes the `'\r'` of a `"\r\n"` line ending), so
the display preview is *not* a character-prefix of the input, contradicting
the claimed prefix property (and the claimed equality with the pure
4-lines-then-300-characters prefix transform). -/
theorem C4_counterexample :
    listPre (compact_preview ['a', '\r', '\n', 'b']) ['a', '\r', '\n', 'b']
      = false ∧
    compact_preview ['a', '\r', '\n', 'b'] = ['a', '\n', 'b'] := by
  constructor
  · decide
  · decide

/-- C4 (amended).  The display preview equals: split the input at `'\n'` or
`"\r\n"` line endings (the ending removed — a `'\r'` is deleted exactly when
it directly precedes a removed `'\n'`), keep at most the first 4 lines, rejoin
with `'\n'`, and keep at most the first 300 characters of the result; this is
a pure transform, and for every input containing no carriage return the
output is a character-prefix of the input (order-preserving, never reordered
or summarized). -/
theorem C4_truncation_rule (s : List Char) :
    compact_preview s = (joinNl ((rustLines s).take 4)).take 300 ∧
    ('\r' ∉ s → listPre (compact_preview s) s = true) := by
  refine ⟨compact_preview_eq s, fun hr => ?_⟩
  rw [listPre_iff, compact_preview_eq s]
  refine pre_trans (pre_take _ 300) ?_
  refine pre_trans (joinNl_take_pre (rustLines s) 4) ?_
  refine pre_trans (joinNl_finishLines_pre (splitOnNl s) ?_) ?_
  · intro l hl hcr
    exact hr (mem_of_mem_splitOnNl s l hl '\r' hcr)
  · exact ⟨[], by rw [List.append_nil, joinNl_splitOnNl]⟩

/-- Witness for C4 at the input `"ab\ncd"`: it contains no `'\r'`, and the
preview both matches the normal form and is a character-prefix of the
input. -/
theorem C4_truncation_rule_witness :
    ('\r' ∉ ['a', 'b', '\n', 'c', 'd']) ∧
    compact_preview ['a', 'b', '\n', 'c', 'd'] =
      (joinNl ((rustLines ['a', 'b', '\n', 'c', 'd']).take 4)).take 300 ∧
    listPre (compact_preview ['a', 'b', '\n', 'c', 'd'])
      ['a', 'b', '\n', 'c', 'd'] = true :=
  ⟨by decide, (C4_truncation_rule _).1,
    (C4_truncation_rule _).2 (by decide)⟩

/-! ## C6: idempotence of the preview transform -/

/-- Predicate `hasCrNl s = true` holds iff `s` contains a `'\r'` directly followed by
`'\n'` (i.e. a Windows line ending that `str::lines` rewrites). -/
def hasCrNl : List Char → Bool
  | [] => false
  | [_] => false
  | a :: b :: rest => (a = '\r' && b = '\n') || hasCrNl (b :: rest)

lemma hasCrNl_cons_cons (a b : Char) (rest : List Char) :
    hasCrNl (a :: b :: rest) =
      ((a = '\r' && b = '\n') || hasCrNl (b :: rest)) := rfl

lemma length_splitOnNl : ∀ s : List Char,
    (splitOnNl s).length = s.count '\n' + 1
  | [] => rfl
  | c :: rest => by
    by_cases hc : c = '\n'
    · subst hc
      rw [splitOnNl_cons_nl, List.length_cons, length_splitOnNl rest,
        List.count_cons_self]
    · obtain ⟨l, ls, h1, h2⟩ := splitOnNl_cons_ne c rest hc
      rw [h2, List.length_cons, List.count_cons_of_ne (Ne.symm hc), ←
        length_splitOnNl rest, h1, List.length_cons]

/-- If the string has no `"\r\n"` pair and does not end in `'\n'` (and is
nonempty), the `str::lines` post-processing is the identity on the plain
`'\n'`-split: nothing is stripped and no final empty segment exists. -/
lemma finishLines_splitOnNl :
    ∀ t : List Char, t ≠ [] → hasCrNl t = false →
      t.getLast? ≠ some '\n' → finishLines (splitOnNl t) = splitOnNl t
  | [], h0, _, _ => absurd rfl h0
  | [c], _, _, h2 => by
    have hc : c ≠ '\n' := by
      intro h
      exact h2 (by rw [h]; rfl)
    obtain ⟨l, ls, h1, hsp⟩ := splitOnNl_cons_ne c [] hc
    rw [show splitOnNl ([] : List Char) = [[]] from rfl] at h1
    injection h1 with e1 e2
    subst e1; subst e2
    rw [hsp]
    rfl
  | c :: d :: rest, _, h1, h2 => by
    have h1' : hasCrNl (d :: rest) = false := by
      rw [hasCrNl_cons_cons] at h1
      exact (Bool.or_eq_false_iff.mp h1).2
    have hcd : (decide (c = '\r') && decide (d = '\n')) = false := by
      rw [hasCrNl_cons_cons] at h1
      exact (Bool.or_eq_false_iff.mp h1).1
    have h2' : (d :: rest).getLast? ≠ some '\n' := by
      rw [List.getLast?_cons_cons] at h2
      exact h2
    have IH := finishLines_splitOnNl (d :: rest) (by simp) h1' h2'
    by_cases hc : c = '\n'
    · subst hc
      rw [splitOnNl_cons_nl]
      cases hL : splitOnNl (d :: rest) with
      | nil => exact absurd hL (splitOnNl_ne_nil _)
      | cons l ls =>
        rw [hL] at IH
        rw [show finishLines ([] :: l :: ls) =
          stripCr [] :: finishLines (l :: ls) from rfl, IH]
        rfl
    · obtain ⟨l, ls, hL, hsp⟩ := splitOnNl_cons_ne c (d :: rest) hc
      rw [hsp]
      cases ls with
      | nil =>
        rw [show finishLines [c :: l] =
          if (c :: l).isEmpty then [] else [c :: l] from rfl]
        rfl
      | cons l2 ls2 =>
        rw [hL] at IH
        rw [show finishLines ((c :: l) :: l2 :: ls2) =
          stripCr (c :: l) :: finishLines (l2 :: ls2) from rfl]
        rw [show finishLines (l :: l2 :: ls2) =
          stripCr l :: finishLines (l2 :: ls2) from rfl] at IH
        injection IH with e1 e2
        rw [e2]
        cases l with
        | cons x xs => rw [stripCr_cons_of_ne_nil c (x :: xs) (by simp), e1]
        | nil =>
          have hd : d = '\n' := by
            by_contra hd
            obtain ⟨l', ls', _, hsp'⟩ := splitOnNl_cons_ne d rest hd
            rw [hsp'] at hL
            injection hL with e3 _
            exact List.noConfusion e3
          have hcr : c ≠ '\r' := by
            intro hcr
            rw [hcr, hd] at hcd
            simp at hcd
          rw [show stripCr [c] = [c] by
            rw [stripCr_cons, if_neg (fun hx => hcr hx.2)]
            rfl]

/-- No element of the `str::lines` output contains `'\n'`. -/
lemma not_nl_mem_finishLines :
    ∀ L : List (List Char), (∀ l ∈ L, '\n' ∉ l) →
      ∀ l ∈ finishLines L, '\n' ∉ l
  | [], _, l, hl => by simp [finishLines] at hl
  | [x], h, l, hl => by
    rw [show finishLines [x] = if x.isEmpty then [] else [x] from rfl] at hl
    split at hl
    · simp at hl
    · rw [List.mem_singleton] at hl
      subst hl
      exact h l (List.mem_singleton.mpr rfl)
  | x :: y :: L, h, l, hl => by
    rw [show finishLines (x :: y :: L) =
      stripCr x :: finishLines (y :: L) from rfl, List.mem_cons] at hl
    rcases hl with rfl | hl
    · intro hmem
      exact h x (List.mem_cons_self _ _) (mem_stripCr x '\n' hmem)
    · exact not_nl_mem_finishLines (y :: L)
        (fun z hz => h z (List.mem_cons_of_mem _ hz)) l hl

/-- Joining segments that contain no newline adds `length - 1` newlines. -/
lemma count_nl_joinNl :
    ∀ M : List (List Char), (∀ l ∈ M, '\n' ∉ l) →
      (joinNl M).count '\n' ≤ M.length - 1
  | [], _ => by simp [joinNl]
  | [l], h => by
    rw [joinNl_singleton]
    simp only [List.length_cons, List.length_nil]
    rw [Nat.le_sub_iff_add_le (by omega), List.count_eq_zero.mpr
      (h l (List.mem_singleton.mpr rfl))]
  | l :: l2 :: ls, h => by
    rw [joinNl_cons_of_ne_nil l (l2 :: ls) (by simp), List.count_append,
      List.count_cons_self, List.count_eq_zero.mpr
        (h l (List.mem_cons_self _ _))]
    have := count_nl_joinNl (l2 :: ls)
      (fun z hz => h z (List.mem_cons_of_mem _ hz))
    simp only [List.length_cons] at this ⊢
    omega

/-- The preview never holds more than 3 newlines (at most 4 lines). -/
lemma count_nl_preview (s : List Char) :
    (compact_preview s).count '\n' ≤ 3 := by
  rw [compact_preview_eq]
  have hsub := (List.take_sublist 300
    (joinNl ((rustLines s).take 4))).count_le '\n'
  have hM : ∀ l ∈ (rustLines s).take 4, '\n' ∉ l := fun l hl =>
    not_nl_mem_finishLines (splitOnNl s) (not_nl_mem_splitOnNl s)
      l (List.mem_of_mem_take hl)
  have hj := count_nl_joinNl ((rustLines s).take 4) hM
  have hlen : ((rustLines s).take 4).length ≤ 4 := by
    rw [List.length_take]
    omega
  omega

/-- The preview never holds more than 300 characters: either the byte length
was at most 300 (then so is the character count) or exactly the first 300
characters were kept. -/
lemma length_preview (s : List Char) : (compact_preview s).length ≤ 300 := by
  rw [compact_preview_eq, List.length_take]
  omega

/-- Fixed-point lemma: any string with at most 3 newlines, at most 300
characters, no `"\r\n"` pair and no trailing newline passes through
`compact_preview` unchanged. -/
lemma preview_fixed (t : List Char) (h1 : hasCrNl t = false)
    (h2 : t.getLast? ≠ some '\n') (h3 : t.count '\n' ≤ 3)
    (h4 : t.length ≤ 300) : compact_preview t = t := by
  by_cases h0 : t = []
  · subst h0
    rfl
  · have hA : rustLines t = splitOnNl t := finishLines_splitOnNl t h0 h1 h2
    have hlen : (splitOnNl t).length ≤ 4 := by
      rw [length_splitOnNl]
      omega
    simp only [compact_preview]
    rw [show rustLines t = splitOnNl t from hA,
      if_neg (by omega : ¬ (splitOnNl t).length > 4), joinNl_splitOnNl]
    split
    · exact List.take_of_length_le h4
    · rfl

/-- C6 counterexample: the claim `truncate (truncate s) = truncate s` for
*every* input fails at `s = "a\nb\nc\n\nz"`: the first application keeps the
4 lines `a`, `b`, `c`, `""` and yields `"a\nb\nc\n"`; the second application
treats the trailing `'\n'` as an optional final line terminator and yields
`"a\nb\nc"`. -/
theorem C6_counterexample :
    compact_preview (compact_preview
      ['a', '\n', 'b', '\n', 'c', '\n', '\n', 'z']) ≠
      compact_preview ['a', '\n', 'b', '\n', 'c', '\n', '\n', 'z'] ∧
    compact_preview ['a', '\n', 'b', '\n', 'c', '\n', '\n', 'z'] =
      ['a', '\n', 'b', '\n', 'c', '\n'] ∧
    compact_preview ['a', '\n', 'b', '\n', 'c', '\n'] =
      ['a', '\n', 'b', '\n', 'c'] := by
  refine ⟨by decide, by decide, by decide⟩

/-- C6 (amended).  The preview transform is idempotent on every input whose
preview neither contains a carriage return directly followed by a newline nor
ends with a newline: such display values are fixed points of
`compact_preview`.  (A second application can only differ by dropping a
trailing `'\n'` — left when the input's fourth line was empty — or a `'\r'`
newly exposed before a `'\n'`.) -/
theorem C6_idempotence (s : List Char)
    (h1 : hasCrNl (compact_preview s) = false)
    (h2 : (compact_preview s).getLast? ≠ some '\n') :
    compact_preview (compact_preview s) = compact_preview s :=
  preview_fixed (compact_preview s) h1 h2 (count_nl_preview s)
    (length_preview s)

/-- Witness for C6 at `s = "hello\nworld"`: hypotheses hold and the preview
is a fixed point. -/
theorem C6_idempotence_witness :
    hasCrNl (compact_preview
      ['h', 'e', 'l', 'l', 'o', '\n', 'w', 'o', 'r', 'l', 'd']) = false ∧
    (compact_preview
      ['h', 'e', 'l', 'l', 'o', '\n', 'w', 'o', 'r', 'l', 'd']).getLast? ≠
      some '\n' ∧
    compact_preview (compact_preview
      ['h', 'e', 'l', 'l', 'o', '\n', 'w', 'o', 'r', 'l', 'd']) =
      compact_preview ['h', 'e', 'l', 'l', 'o', '\n', 'w', 'o', 'r', 'l', 'd'] :=
  ⟨by decide, by decide, C6_idempotence _ (by decide) (by decide)⟩

/-! ## Change tracker and poll tick (main.rs lines 240-244 and 592-631)

The timer closure observes foreign state each tick: whether a clipboard
handle could be acquired (`Clipboard::new()`), the text read result
(`cb.get_text()`, `none` = error/no text) and the image read result
(`cb.get_image()`).  The content hash (`calculate_hash`, a deterministic
foreign function over the image byte buffer) is an explicit parameter. -/

/-- The `ClipboardTracker` state (main.rs lines 240-244). -/
structure ClipboardTracker where
  last_text : List Char
  last_img_hash : Nat
  last_own_copy : Nat
deriving DecidableEq

/-- An event emitted by a poll tick: the `KlipBoredMsg::NewItem` message the
closure sends (main.rs lines 605-608 and 623-626). -/
inductive PollEvent where
  | text (full : List Char) (display : List Char)
  | image (raw : ImageDataOwned)
deriving DecidableEq

/-- The image half of the poll tick (main.rs lines 612-628): if an image was
read with a non-empty byte buffer whose hash differs from `last_img_hash`,
record the hash and emit an Image event. -/
def checkImage (hash : List Nat → Nat) (st : ClipboardTracker)
    (imgRead : Option ImageDataOwned) :
    ClipboardTracker × Option PollEvent :=
  match imgRead with
  | none => (st, none)
  | some img =>
    if img.data.length > 0 ∧ hash img.data ≠ st.last_img_hash then
      ({ st with last_img_hash := hash img.data }, some (.image img))
    else (st, none)

/-- One poll tick (the closure of `glib::timeout_add_local`, main.rs lines
592-631).  In source order: bail out if setup is not done; bail out inside
the suppression window (`last_own_copy.elapsed() < 1500ms`); bail out if no
clipboard handle could be acquired; if a non-empty text was read that differs
from `last_text`, record it and emit a Text event with
`display = compact_preview text`, *returning early*; otherwise run the image
check.  Returns the updated tracker and the emitted event, if any (the early
return makes at most one event per tick possible by construction). -/
def pollTick (hash : List Nat → Nat) (setupDone : Bool)
    (st : ClipboardTracker) (now : Nat) (cbAvail : Bool)
    (textRead : Option (List Char)) (imgRead : Option ImageDataOwned) :
    ClipboardTracker × Option PollEvent :=
  if setupDone = false then (st, none)
  else if now - st.last_own_copy < 1500 then (st, none)
  else if cbAvail = false then (st, none)
  else
    match textRead with
    | some text =>
      if text ≠ [] ∧ text ≠ st.last_text then
        ({ st with last_text := text },
          some (.text text (compact_preview text)))
      else checkImage hash st imgRead
    | none => checkImage hash st imgRead

/-- The tracker priming performed synchronously by the `RequestCopy` arm
before the writer thread is spawned (main.rs lines 774-783): record the
self-write time and prime `last_text` (text) or `last_img_hash` (image) with
the copied content. -/
def recordSelfWrite (hash : List Nat → Nat) (st : ClipboardTracker)
    (now : Nat) (content : ClipboardContent) : ClipboardTracker :=
  match content with
  | .Text full _ => { st with last_own_copy := now, last_text := full }
  | .Image raw =>
    { st with last_own_copy := now, last_img_hash := hash raw.data }

/-! ## The component model and its update function (main.rs lines 686-811)

Only the clipboard core of `KlipBoredModel` is embedded: the history store
and the tracker.  The remaining fields (`current_page`, `autostart_enabled`,
`current_binding`, `manual_binding`, `binding_status`, `setup_done`) are UI
and wizard state; no arm of `update` that touches them reads or writes the
two core fields, and no clipboard arm reads or writes them, so they are
omitted together with the wizard messages. -/

structure KlipBoredModel where
  clipboard_entries : List ClipboardContent
  tracker : ClipboardTracker
deriving DecidableEq

/-- The three clipboard messages of `KlipBoredMsg` (main.rs lines 256-269);
a `DynamicIndex` enters the clipboard arms only through
`index.current_index()`, so positions are naturals. -/
inductive KlipBoredMsg where
  | NewItem (c : ClipboardContent)
  | DeleteItem (i : Nat)
  | RequestCopy (i : Nat)
deriving DecidableEq

/-- The clipboard arms of `KlipBoredModel::update` (main.rs lines 760-809).
`RequestCopy` performs only the synchronous part here (lookup and tracker
priming); the spawned writer thread is modelled by `copyWorker` below. -/
def update (hash : List Nat → Nat) (now : Nat) (m : KlipBoredModel)
    (msg : KlipBoredMsg) : KlipBoredModel :=
  match msg with
  | .NewItem c => { m with clipboard_entries := pushItem m.clipboard_entries c }
  | .DeleteItem i =>
    { m with clipboard_entries := removeAt m.clipboard_entries i }
  | .RequestCopy i =>
    match m.clipboard_entries[i]? with
    | some c => { m with tracker := recordSelfWrite hash m.tracker now c }
    | none => m

/-- The copy-back writer thread (main.rs lines 790-807).  The closure
captures only its own clone of the content; it acquires a clipboard handle
(`cbOk`), performs the write (`writeOk`) discarding the result (`let _ =`),
sleeps 600ms and exits.  It sends no message back to the component and
surfaces no error, whatever the two outcomes are — its entire effect on the
model is the returned (empty) message list and (absent) error. -/
def copyWorker (content : ClipboardContent) (cbOk : Bool) (writeOk : Bool) :
    List KlipBoredMsg × Option (List Char) :=
  ([], none)

/-- The complete `RequestCopy` flow (main.rs lines 770-809): if the position
resolves to an entry, prime the tracker synchronously, then run the writer
thread and apply whatever messages it sends back (none) to the model;
returns the final model and any surfaced error. -/
def requestCopyFlow (hash : List Nat → Nat) (now : Nat) (m : KlipBoredModel)
    (i : Nat) (cbOk : Bool) (writeOk : Bool) :
    KlipBoredModel × Option (List Char) :=
  match m.clipboard_entries[i]? with
  | none => (m, none)
  | some c =>
    let m2 := update hash now m (.RequestCopy i)
    let w := copyWorker c cbOk writeOk
    (w.1.foldl (update hash now) m2, w.2)

/-! ## Poll-tick normal forms -/

/-- A tick bails out with no event and an unchanged tracker when setup is not
done, inside the suppression window, or without a clipboard handle. -/
lemma pollTick_bail (hash : List Nat → Nat) (sd : Bool)
    (st : ClipboardTracker) (now : Nat) (avail : Bool)
    (tr : Option (List Char)) (ir : Option ImageDataOwned)
    (h : sd = false ∨ now - st.last_own_copy < 1500 ∨ avail = false) :
    pollTick hash sd st now avail tr ir = (st, none) := by
  unfold pollTick
  rcases h with h | h | h
  · rw [if_pos h]
  · by_cases hsd : sd = false
    · rw [if_pos hsd]
    · rw [if_neg hsd, if_pos h]
  · by_cases hsd : sd = false
    · rw [if_pos hsd]
    · rw [if_neg hsd]
      by_cases hsup : now - st.last_own_copy < 1500
      · rw [if_pos hsup]
      · rw [if_neg hsup, if_pos h]

/-- Outside the three bail-outs, a tick with an observed text is the text
check followed (when it finds nothing) by the image check. -/
lemma pollTick_go_text (hash : List Nat → Nat) (st : ClipboardTracker)
    (now : Nat) (text : List Char) (ir : Option ImageDataOwned)
    (hsup : ¬ now - st.last_own_copy < 1500) :
    pollTick hash true st now true (some text) ir =
      if text ≠ [] ∧ text ≠ st.last_text then
        ({ st with last_text := text },
          some (.text text (compact_preview text)))
      else checkImage hash st ir := by
  unfold pollTick
  rw [if_neg (by simp), if_neg hsup, if_neg (by simp)]

/-- Outside the three bail-outs, a tick with no readable text is just the
image check. -/
lemma pollTick_go_none (hash : List Nat → Nat) (st : ClipboardTracker)
    (now : Nat) (ir : Option ImageDataOwned)
    (hsup : ¬ now - st.last_own_copy < 1500) :
    pollTick hash true st now true none ir = checkImage hash st ir := by
  unfold pollTick
  rw [if_neg (by simp), if_neg hsup, if_neg (by simp)]

/-- The image check never produces a text event. -/
lemma checkImage_snd (hash : List Nat → Nat) (st : ClipboardTracker)
    (ir : Option ImageDataOwned) :
    (checkImage hash st ir).2 = none ∨
      ∃ img, (checkImage hash st ir).2 = some (.image img) := by
  cases ir with
  | none => exact Or.inl rfl
  | some img =>
    by_cases hc : img.data.length > 0 ∧ hash img.data ≠ st.last_img_hash
    · exact Or.inr ⟨img, by simp [checkImage, hc]⟩
    · exact Or.inl (by simp [checkImage, hc])

/-- The image check never touches `last_text`. -/
lemma checkImage_last_text (hash : List Nat → Nat) (st : ClipboardTracker)
    (ir : Option ImageDataOwned) :
    (checkImage hash st ir).1.last_text = st.last_text := by
  cases ir with
  | none => rfl
  | some img =>
    by_cases hc : img.data.length > 0 ∧ hash img.data ≠ st.last_img_hash
    · simp [checkImage, hc]
    · simp [checkImage, hc]

/-! ## C2: self-write suppression and priming -/

/-- C2.  After the copy-back flow records a self-write of text `t` at time
`T` (priming `last_own_copy := T` and `last_text := t`):
(a) every poll tick strictly before `T + 1500` ms emits no event, regardless
of setup flag, clipboard availability and observed content;
(b) a tick at or after `T + 1500` ms that observes text `t` (and no image)
still emits no event — `last_text` was primed at record time, independently
of the window;
(c) a tick at or after `T + 1500` ms that observes a different non-empty
text `u` emits exactly one event, the Text event for `u`. -/
theorem C2_self_write_suppression (hash : List Nat → Nat)
    (st : ClipboardTracker) (T : Nat) (t d : List Char) :
    (∀ now sd avail tr ir, now < T + 1500 →
      (pollTick hash sd (recordSelfWrite hash st T (.Text t d)) now avail
        tr ir).2 = none) ∧
    (∀ now, T + 1500 ≤ now →
      (pollTick hash true (recordSelfWrite hash st T (.Text t d)) now true
        (some t) none).2 = none) ∧
    (∀ now u, T + 1500 ≤ now → u ≠ [] → u ≠ t →
      (pollTick hash true (recordSelfWrite hash st T (.Text t d)) now true
        (some u) none).2 =
        some (.text u (compact_preview u))) := by
  have hT : (recordSelfWrite hash st T (.Text t d)).last_own_copy = T := rfl
  have ht : (recordSelfWrite hash st T (.Text t d)).last_text = t := rfl
  refine ⟨?_, ?_, ?_⟩
  · intro now sd avail tr ir hnow
    rw [pollTick_bail hash sd _ now avail tr ir
      (Or.inr (Or.inl (by rw [hT]; omega)))]
  · intro now hnow
    rw [pollTick_go_text hash _ now t none (by rw [hT]; omega)]
    simp [ht, checkImage]
  · intro now u hnow hu1 hu2
    rw [pollTick_go_text hash _ now u none (by rw [hT]; omega)]
    simp [ht, hu1, hu2]

/-- Witness for C2: concrete tracker `⟨[], 0, 0⟩`, self-write of `"xyz"` at
`T = 10000`; a tick at 11000 (inside the window) observing `"q"` emits
nothing, a tick at 12000 observing `"xyz"` emits nothing, and a tick at
12000 observing `"xyz2"` emits the Text event. -/
theorem C2_self_write_suppression_witness :
    (11000 < 10000 + 1500 ∧
      (pollTick (fun _ => 0) true
        (recordSelfWrite (fun _ => 0) ⟨[], 0, 0⟩ 10000
          (.Text ['x', 'y', 'z'] ['x', 'y', 'z'])) 11000 true
        (some ['q']) none).2 = none) ∧
    (10000 + 1500 ≤ 12000 ∧
      (pollTick (fun _ => 0) true
        (recordSelfWrite (fun _ => 0) ⟨[], 0, 0⟩ 10000
          (.Text ['x', 'y', 'z'] ['x', 'y', 'z'])) 12000 true
        (some ['x', 'y', 'z']) none).2 = none) ∧
    (pollTick (fun _ => 0) true
      (recordSelfWrite (fun _ => 0) ⟨[], 0, 0⟩ 10000
        (.Text ['x', 'y', 'z'] ['x', 'y', 'z'])) 12000 true
      (some ['x', 'y', 'z', '2']) none).2 =
      some (.text ['x', 'y', 'z', '2']
        (compact_preview ['x', 'y', 'z', '2'])) :=
  ⟨⟨by omega,
    (C2_self_write_suppression (fun _ => 0) ⟨[], 0, 0⟩ 10000
      ['x', 'y', 'z'] ['x', 'y', 'z']).1 11000 true true (some ['q']) none
      (by omega)⟩,
   ⟨by omega,
    (C2_self_write_suppression (fun _ => 0) ⟨[], 0, 0⟩ 10000
      ['x', 'y', 'z'] ['x', 'y', 'z']).2.1 12000 (by omega)⟩,
   (C2_self_write_suppression (fun _ => 0) ⟨[], 0, 0⟩ 10000
      ['x', 'y', 'z'] ['x', 'y', 'z']).2.2 12000 ['x', 'y', 'z', '2']
      (by omega) (by decide) (by decide)⟩

/-! ## C3: dedup of consecutive identical text -/

/-- C3.  If a tick observes text `s` and emits the Text event for `s`
(recording `last_text := s`), then the immediately following tick that again
observes `s` (and no image) emits no event, whatever its time is: either it
is suppressed, or `s` equals the recorded `last_text`.  Together with the
hypothesis this gives exactly one new-item event for two consecutive
observations of the same string. -/
theorem C3_dedup (hash : List Nat → Nat) (st : ClipboardTracker)
    (now now2 : Nat) (s d : List Char) (ir : Option ImageDataOwned)
    (h : (pollTick hash true st now true (some s) ir).2 = some (.text s d)) :
    (pollTick hash true (pollTick hash true st now true (some s) ir).1 now2
      true (some s) none).2 = none := by
  by_cases hsup : now - st.last_own_copy < 1500
  · rw [pollTick_bail hash true st now true (some s) ir
      (Or.inr (Or.inl hsup))] at h
    exact absurd h (by simp)
  · rw [pollTick_go_text hash st now s ir hsup] at h ⊢
    by_cases hcond : s ≠ [] ∧ s ≠ st.last_text
    · rw [if_pos hcond]
      show (pollTick hash true { st with last_text := s } now2 true (some s)
        none).2 = none
      have hlt : ({ st with last_text := s } :
          ClipboardTracker).last_own_copy = st.last_own_copy := rfl
      by_cases hsup2 : now2 - st.last_own_copy < 1500
      · rw [pollTick_bail hash true _ now2 true (some s) none
          (Or.inr (Or.inl (by rw [hlt]; exact hsup2)))]
      · rw [pollTick_go_text hash _ now2 s none
          (by rw [hlt]; exact hsup2)]
        simp [checkImage]
    · rw [if_neg hcond] at h
      rcases checkImage_snd hash st ir with hn | ⟨img, hi⟩
      · rw [hn] at h
        exact absurd h (by simp)
      · rw [hi] at h
        exact absurd h (by simp)

/-- Witness for C3: from tracker `⟨[], 0, 0⟩`, a tick at 2000 observing
`"abc"` emits the Text event, and the following tick at 2800 observing
`"abc"` again emits nothing. -/
theorem C3_dedup_witness :
    (pollTick (fun _ => 0) true ⟨[], 0, 0⟩ 2000 true
      (some ['a', 'b', 'c']) none).2 =
      some (.text ['a', 'b', 'c'] (compact_preview ['a', 'b', 'c'])) ∧
    (pollTick (fun _ => 0) true
      (pollTick (fun _ => 0) true ⟨[], 0, 0⟩ 2000 true
        (some ['a', 'b', 'c']) none).1 2800 true
      (some ['a', 'b', 'c']) none).2 = none :=
  ⟨by decide,
    C3_dedup (fun _ => 0) ⟨[], 0, 0⟩ 2000 2800 ['a', 'b', 'c']
      (compact_preview ['a', 'b', 'c']) none (by decide)⟩

/-! ## C5: at most one event per tick, text priority -/

/-- C5.  A tick's result is a single `Option PollEvent` (the source's early
`return` makes more than one send per tick impossible by construction), and:
if the tick emitted a Text event then the image state `last_img_hash` was not
touched (no image detection happened); if it emitted an Image event then the
text state `last_text` was not touched and the text branch had found nothing
(any observed text was empty or equal to `last_text`). -/
theorem C5_text_priority (hash : List Nat → Nat) (sd : Bool)
    (st : ClipboardTracker) (now : Nat) (avail : Bool)
    (tr : Option (List Char)) (ir : Option ImageDataOwned) :
    (∀ f d, (pollTick hash sd st now avail tr ir).2 = some (.text f d) →
      (pollTick hash sd st now avail tr ir).1.last_img_hash =
        st.last_img_hash) ∧
    (∀ img, (pollTick hash sd st now avail tr ir).2 = some (.image img) →
      (pollTick hash sd st now avail tr ir).1.last_text = st.last_text ∧
      ∀ u, tr = some u → u = [] ∨ u = st.last_text) := by
  by_cases hb : sd = false ∨ now - st.last_own_copy < 1500 ∨ avail = false
  · rw [pollTick_bail hash sd st now avail tr ir hb]
    exact ⟨fun f d h => absurd h (by simp),
      fun img h => absurd h (by simp)⟩
  · have hsd : sd = true := by
      cases sd
      · exact absurd (Or.inl rfl) hb
      · rfl
    have hav : avail = true := by
      cases avail
      · exact absurd (Or.inr (Or.inr rfl)) hb
      · rfl
    have hsup : ¬ now - st.last_own_copy < 1500 := fun hs =>
      hb (Or.inr (Or.inl hs))
    subst hsd
    subst hav
    cases tr with
    | none =>
      rw [pollTick_go_none hash st now ir hsup]
      refine ⟨fun f d h => ?_, fun img h =>
        ⟨checkImage_last_text hash st ir, fun u hu => by simp at hu⟩⟩
      rcases checkImage_snd hash st ir with hn | ⟨img, hi⟩
      · rw [hn] at h
        exact absurd h (by simp)
      · rw [hi] at h
        exact absurd h (by simp)
    | some u =>
      rw [pollTick_go_text hash st now u ir hsup]
      by_cases hcond : u ≠ [] ∧ u ≠ st.last_text
      · rw [if_pos hcond]
        exact ⟨fun f d h => rfl, fun img h => absurd h (by simp)⟩
      · rw [if_neg hcond]
        refine ⟨fun f d h => ?_, fun img h =>
          ⟨checkImage_last_text hash st ir, fun u' hu => ?_⟩⟩
        · rcases checkImage_snd hash st ir with hn | ⟨img, hi⟩
          · rw [hn] at h
            exact absurd h (by simp)
          · rw [hi] at h
            exact absurd h (by simp)
        · injection hu with hu
          subst hu
          by_cases h1 : u = []
          · exact Or.inl h1
          · refine Or.inr ?_
            by_cases h2 : u = st.last_text
            · exact h2
            · exact absurd ⟨h1, h2⟩ hcond

/-- Witness for C5: a tick that observes both a new text `"a"` and a new
image emits only the Text event and leaves `last_img_hash` untouched. -/
theorem C5_text_priority_witness :
    (pollTick (fun b => b.length) true ⟨[], 0, 0⟩ 2000 true (some ['a'])
      (some ⟨1, 1, [7]⟩)).2 =
      some (.text ['a'] (compact_preview ['a'])) ∧
    (pollTick (fun b => b.length) true ⟨[], 0, 0⟩ 2000 true (some ['a'])
      (some ⟨1, 1, [7]⟩)).1.last_img_hash =
      (⟨[], 0, 0⟩ : ClipboardTracker).last_img_hash :=
  ⟨by decide,
    (C5_text_priority (fun b => b.length) true ⟨[], 0, 0⟩ 2000 true
      (some ['a']) (some ⟨1, 1, [7]⟩)).1 ['a'] (compact_preview ['a'])
      (by decide)⟩

/-! ## C9: deletion does not touch the tracker -/

/-- C9.  `DeleteItem` mutates only the history store: the tracker (all three
fields, hence in particular `last_text`, `last_img_hash`, `last_own_copy`) is
unchanged; consequently any later tick that observes exactly the tracker's
`last_text` (and no image) still emits no event — the deleted content cannot
re-enter the history until different content is observed first. -/
theorem C9_delete_preserves_tracker (hash : List Nat → Nat)
    (m : KlipBoredModel) (now : Nat) (i : Nat) :
    (update hash now m (.DeleteItem i)).tracker = m.tracker ∧
    ∀ sd now2 avail,
      (pollTick hash sd (update hash now m (.DeleteItem i)).tracker now2
        avail (some m.tracker.last_text) none).2 = none := by
  refine ⟨rfl, ?_⟩
  intro sd now2 avail
  rw [show (update hash now m (.DeleteItem i)).tracker = m.tracker from rfl]
  cases sd with
  | false =>
    rw [pollTick_bail hash false m.tracker now2 avail _ none (Or.inl rfl)]
  | true =>
    cases avail with
    | false =>
      rw [pollTick_bail hash true m.tracker now2 false _ none
        (Or.inr (Or.inr rfl))]
    | true =>
      by_cases hsup : now2 - m.tracker.last_own_copy < 1500
      · rw [pollTick_bail hash true m.tracker now2 true _ none
          (Or.inr (Or.inl hsup))]
      · rw [pollTick_go_text hash m.tracker now2 m.tracker.last_text none
          hsup]
        simp [checkImage]

/-! ## C10: copy-back priming is unconditional and never rolled back -/

/-- C10.  For an in-bounds position, the `RequestCopy` flow primes the
tracker with the entry's content synchronously (before the writer thread
runs), leaves the history untouched, surfaces no error, and its final model
state is independent of whether the worker could acquire the clipboard
(`cbOk`) or whether the write succeeded (`writeOk`): the worker discards both
results and has no channel back to the component. -/
theorem C10_priming_unconditional (hash : List Nat → Nat) (now : Nat)
    (m : KlipBoredModel) (i : Nat) (cbOk writeOk : Bool)
    (c : ClipboardContent) (h : m.clipboard_entries[i]? = some c) :
    (requestCopyFlow hash now m i cbOk writeOk).1.tracker =
      recordSelfWrite hash m.tracker now c ∧
    (requestCopyFlow hash now m i cbOk writeOk).1.clipboard_entries =
      m.clipboard_entries ∧
    (requestCopyFlow hash now m i cbOk writeOk).2 = none ∧
    requestCopyFlow hash now m i cbOk writeOk =
      requestCopyFlow hash now m i true true := by
  simp [requestCopyFlow, update, copyWorker, h]

/-- Witness for C10: one stored text entry, position 0, a worker that fails
both to open the clipboard and to write; the tracker is primed anyway and no
error is surfaced. -/
theorem C10_priming_unconditional_witness :
    (⟨[.Text ['x'] ['x']], ⟨[], 0, 0⟩⟩ :
        KlipBoredModel).clipboard_entries[0]? =
      some (.Text ['x'] ['x']) ∧
    (requestCopyFlow (fun _ => 0) 5000 ⟨[.Text ['x'] ['x']], ⟨[], 0, 0⟩⟩ 0
      false false).1.tracker =
      recordSelfWrite (fun _ => 0) ⟨[], 0, 0⟩ 5000 (.Text ['x'] ['x']) ∧
    (requestCopyFlow (fun _ => 0) 5000 ⟨[.Text ['x'] ['x']], ⟨[], 0, 0⟩⟩ 0
      false false).2 = none :=
  ⟨by decide,
    (C10_priming_unconditional (fun _ => 0) 5000
      ⟨[.Text ['x'] ['x']], ⟨[], 0, 0⟩⟩ 0 false false (.Text ['x'] ['x'])
      (by decide)).1,
    (C10_priming_unconditional (fun _ => 0) 5000
      ⟨[.Text ['x'] ['x']], ⟨[], 0, 0⟩⟩ 0 false false (.Text ['x'] ['x'])
      (by decide)).2.2.1⟩

end KlipBored
